import Mathlib

/-!
Shallow embedding of `src/day8.rs` from rosslannen/advent-of-code-2020-rs.

Rust `i32` values are modelled as `Int` (overflow behaviour is not part of
any claim); `Vec<Instruction>` as `List Instruction`; fallible operations
return `Option`/`Except`.  The `HashSet<i32>` of executed instruction
pointers is modelled as a `List Int` used only through membership, which is
all the Rust code uses it for.
-/

/-- The three instruction kinds of the machine (`enum Instruction`). -/
inductive Instruction where
  | NoOperation (n : Int)
  | Accumulate (n : Int)
  | Jump (n : Int)
deriving DecidableEq, Repr

/-- Terminal classification of a run (`enum CompletionState`). -/
inductive CompletionState where
  | OutOfBounds
  | Loop
  | Finished
deriving DecidableEq, Repr

/-- `struct Program { instructions, accumulator, counter }`. -/
structure Program where
  instructions : List Instruction
  accumulator : Int
  counter : Int
deriving DecidableEq, Repr

namespace Program

/-- `Program::len`. -/
def len (p : Program) : Nat := p.instructions.length

/-- `Program::step`.  Rust mutates `self` and returns `Option<i32>`; we
return the pair (returned value, updated state).  `counter.try_into()`
fails exactly when the counter is negative, and `instructions.get(index)`
fails exactly when the index is out of range; on both early returns the
state is untouched. -/
def step (p : Program) : Option Int × Program :=
  if p.counter < 0 then (none, p)
  else
    match p.instructions.get? p.counter.toNat with
    | none => (none, p)
    | some instr =>
      match instr with
      | .NoOperation _ => (some p.counter, { p with counter := p.counter + 1 })
      | .Accumulate count =>
          (some p.counter,
           { p with accumulator := p.accumulator + count, counter := p.counter + 1 })
      | .Jump offset => (some p.counter, { p with counter := p.counter + offset })

/-- The loop body of `Program::run`, with explicit fuel.  Each iteration
records the current counter in the visited set (`executed_instructions`),
detects a loop by membership, and on a failed step classifies the halt by
comparing the (unchanged) counter with the program length. -/
def runAux : Nat → Program → List Int → Option (CompletionState × Program)
  | 0, _, _ => none
  | fuel + 1, p, visited =>
    let instruction := p.counter
    if instruction ∈ visited then some (CompletionState.Loop, p)
    else
      match p.step with
      | (none, q) =>
          some ((if q.counter = (q.instructions.length : Int)
                 then CompletionState.Finished
                 else CompletionState.OutOfBounds), q)
      | (some _, q) => runAux fuel q (instruction :: visited)

/-- `Program::run`.  The Rust loop always terminates within `len + 1`
iterations (proved below), so that much fuel is provided. -/
def run (p : Program) : Option (CompletionState × Program) :=
  runAux (p.instructions.length + 1) p []

/-- `Program::with_flipped_instruction`.  The rebuilt program goes through
`FromIterator`, so its accumulator and counter are fresh zeroes. -/
def with_flipped_instruction (p : Program) (index : Nat) : Option Program :=
  match p.instructions.get? index with
  | none => none
  | some (.Accumulate _) => none
  | some (.NoOperation n) =>
      some { instructions := p.instructions.set index (.Jump n),
             accumulator := 0, counter := 0 }
  | some (.Jump n) =>
      some { instructions := p.instructions.set index (.NoOperation n),
             accumulator := 0, counter := 0 }

end Program

/-! ## Parsing -/

/-- `str::split_whitespace`: maximal runs of non-whitespace characters. -/
def wsTokensAux : List Char → List Char → List String
  | [], acc => if acc = [] then [] else [String.mk acc.reverse]
  | c :: cs, acc =>
    if c.isWhitespace then
      if acc = [] then wsTokensAux cs [] else String.mk acc.reverse :: wsTokensAux cs []
    else wsTokensAux cs (c :: acc)

/-- The whitespace-separated tokens of a string. -/
def rustTokens (s : String) : List String := wsTokensAux s.data []

/-- A nonempty all-digit character list read as a decimal number. -/
def parseDigits (l : List Char) : Option Nat :=
  if l = [] then none
  else if l.all Char.isDigit then
    some (l.foldl (fun a c => a * 10 + (c.toNat - 48)) 0)
  else none

/-- `<i32 as FromStr>::from_str`: an optional leading sign, then at least
one decimal digit, with the value required to fit in `i32`. -/
def parseI32 (s : String) : Option Int :=
  let signAndRest : Int × List Char :=
    match s.data with
    | '+' :: cs => (1, cs)
    | '-' :: cs => (-1, cs)
    | cs => (1, cs)
  match parseDigits signAndRest.2 with
  | none => none
  | some n =>
    let v : Int := signAndRest.1 * n
    if -(2 ^ 31) ≤ v ∧ v ≤ 2 ^ 31 - 1 then some v else none

/-- `<Instruction as FromStr>::from_str`: take the first two whitespace
tokens (failing if either is missing), parse the count, then match the
mnemonic. -/
def Instruction.fromStr (s : String) : Except String Instruction :=
  match rustTokens s with
  | [] => Except.error "Could not parse instruction chunk"
  | [_] => Except.error "Could not parse count chunk"
  | instructionStr :: countStr :: _ =>
    match parseI32 countStr with
    | none => Except.error "invalid digit found in string"
    | some value =>
      if instructionStr = "nop" then Except.ok (.NoOperation value)
      else if instructionStr = "acc" then Except.ok (.Accumulate value)
      else if instructionStr = "jmp" then Except.ok (.Jump value)
      else Except.error ("Invalid instruction: " ++ instructionStr)

/-- Split a character list at every newline; the result always has one
more piece than there are newlines. -/
def splitNL : List Char → List (List Char)
  | [] => [[]]
  | c :: cs =>
    if c = '\n' then [] :: splitNL cs
    else
      match splitNL cs with
      | l :: ls => (c :: l) :: ls
      | [] => [[c]]

/-- `str::lines`: split at newlines, drop a final empty piece (so the last
line terminator is optional), and strip one trailing carriage return from
each line. -/
def rustLines (s : String) : List String :=
  let parts := splitNL s.data
  let parts := if parts.getLast? = some [] then parts.dropLast else parts
  parts.map fun l =>
    if l.getLast? = some '\r' then String.mk l.dropLast else String.mk l

/-- `collect::<Result<Vec<_>, _>>()` over the decoded lines: left-to-right,
short-circuiting on the first error. -/
def decodeLines : List String → Except String (List Instruction)
  | [] => Except.ok []
  | l :: ls =>
    match Instruction.fromStr l with
    | Except.error e => Except.error e
    | Except.ok i =>
      match decodeLines ls with
      | Except.error e => Except.error e
      | Except.ok is => Except.ok (i :: is)

/-- `<Program as FromStr>::from_str`: decode every line, then collect the
instructions through `FromIterator` (fresh accumulator and counter). -/
def Program.fromStr (s : String) : Except String Program :=
  match decodeLines (rustLines s) with
  | Except.error e => Except.error e
  | Except.ok instrs =>
      Except.ok { instructions := instrs, accumulator := 0, counter := 0 }

/-! ## The day-8 entry points -/

/-- `part1`: parse, run, and demand a `Loop` classification.  The Rust
`run` is total; the impossible `none` branch of the model falls into the
error case (and is proved unreachable below). -/
def part1 (raw_input : String) : Except String Int :=
  match Program.fromStr raw_input with
  | Except.error e => Except.error e
  | Except.ok program =>
    match program.run with
    | some (CompletionState.Loop, q) => Except.ok q.accumulator
    | _ => Except.error "Loop not found in program"

/-- The `for` loop of `part2` over the lazily filtered candidate indices:
try each index in order, skip those with no mutation, and return the
accumulator of the first variant that finishes. -/
def firstFinished (program : Program) : List Nat → Except String Int
  | [] => Except.error "No correct programs found"
  | i :: rest =>
    match program.with_flipped_instruction i with
    | none => firstFinished program rest
    | some q =>
      match q.run with
      | some (CompletionState.Finished, q2) => Except.ok q2.accumulator
      | _ => firstFinished program rest

/-- `part2`: parse, then search the mutated variants over indices
`0..len`. -/
def part2 (raw_input : String) : Except String Int :=
  match Program.fromStr raw_input with
  | Except.error e => Except.error e
  | Except.ok program => firstFinished program (List.range program.len)

/-- Whether an `Except` is a success. -/
def exceptOk : Except String Instruction → Bool
  | Except.ok _ => true
  | Except.error _ => false

/-! ## Basic facts about `step` -/

/-- A step from an out-of-range counter returns the no-instruction sentinel
and leaves the state untouched. -/
theorem step_invalid (p : Program)
    (h : p.counter < 0 ∨ (p.instructions.length : Int) ≤ p.counter) :
    p.step = (none, p) := by
  unfold Program.step
  rcases h with h | h
  · rw [if_pos h]
  · have h0 : ¬ p.counter < 0 := by omega
    rw [if_neg h0]
    have hg : p.instructions.get? p.counter.toNat = none := by
      rw [List.get?_eq_none]
      omega
    rw [hg]

/-- A successful step happens exactly from a valid counter, and does not
touch the instruction sequence. -/
theorem step_some (p : Program) (r : Int) (q : Program) (h : p.step = (some r, q)) :
    0 ≤ p.counter ∧ p.counter < (p.instructions.length : Int) ∧
      q.instructions = p.instructions := by
  unfold Program.step at h
  by_cases h0 : p.counter < 0
  · rw [if_pos h0] at h
    simp at h
  · rw [if_neg h0] at h
    rcases hg : p.instructions.get? p.counter.toNat with _ | instr
    · rw [hg] at h
      simp at h
    · rw [hg] at h
      have hlt : p.counter.toNat < p.instructions.length := by
        by_contra hge
        have hnone : p.instructions.get? p.counter.toNat = none :=
          List.get?_eq_none.2 (by omega)
        rw [hnone] at hg
        simp at hg
      refine ⟨by omega, by omega, ?_⟩
      cases instr <;>
        · simp only [Prod.mk.injEq] at h
          rw [← h.2]

/-- The step result is the sentinel exactly when the counter is out of
range. -/
theorem step_fst_none_iff (p : Program) :
    (p.step).1 = none ↔
      (p.counter < 0 ∨ (p.instructions.length : Int) ≤ p.counter) := by
  constructor
  · intro h
    by_contra hc
    push_neg at hc
    obtain ⟨h1, h2⟩ := hc
    unfold Program.step at h
    rw [if_neg (by omega)] at h
    rcases hg : p.instructions.get? p.counter.toNat with _ | instr
    · rw [List.get?_eq_none] at hg
      omega
    · rw [hg] at h
      cases instr <;> simp at h
  · intro h
    rw [step_invalid p h]

/-- C10: for every program state whose instruction pointer is invalid
(negative or at least the program length), `step` returns the
no-instruction sentinel and the state — accumulator, pointer and
instruction sequence — is left exactly as it was. -/
theorem step_invalid_pointer_unchanged (p : Program)
    (h : p.counter < 0 ∨ (p.instructions.length : Int) ≤ p.counter) :
    p.step = (none, p) :=
  step_invalid p h

/-- Witness for C10 at a concrete out-of-range state. -/
theorem step_invalid_pointer_unchanged_witness :
    Program.step ⟨[Instruction.NoOperation 0], 3, 5⟩ =
      (none, ⟨[Instruction.NoOperation 0], 3, 5⟩) :=
  step_invalid_pointer_unchanged ⟨[Instruction.NoOperation 0], 3, 5⟩
    (Or.inr (by decide))

/-- C9: execution is deterministic — two programs with the same
instruction sequence, both in the freshly reset run-state, produce the
same run result (classification and final state). -/
theorem run_deterministic (p q : Program)
    (hpa : p.accumulator = 0) (hpc : p.counter = 0)
    (hqa : q.accumulator = 0) (hqc : q.counter = 0)
    (hi : p.instructions = q.instructions) : p.run = q.run := by
  have hpq : p = q := by
    cases p
    cases q
    simp_all
  rw [hpq]

/-- Witness for C9 on a concrete reset program. -/
theorem run_deterministic_witness :
    Program.run ⟨[Instruction.Jump 0], 0, 0⟩ =
      Program.run ⟨[Instruction.Jump 0], 0, 0⟩ :=
  run_deterministic _ _ rfl rfl rfl rfl rfl

/-- C1: when `run` halts because no instruction could be executed, the
outcome is `Finished` exactly when the pointer equals the program length;
any other invalid pointer value classifies the run as `OutOfBounds`. -/
theorem run_halt_classification (p : Program) (h : (p.step).1 = none) :
    (p.run = some (CompletionState.Finished, p) ↔
       p.counter = (p.instructions.length : Int)) ∧
    (p.counter ≠ (p.instructions.length : Int) →
       p.run = some (CompletionState.OutOfBounds, p)) := by
  have hstep : p.step = (none, p) := step_invalid p ((step_fst_none_iff p).1 h)
  have hrun : p.run = some ((if p.counter = (p.instructions.length : Int)
      then CompletionState.Finished else CompletionState.OutOfBounds), p) := by
    unfold Program.run
    simp only [Program.runAux, List.not_mem_nil, if_false, hstep]
  by_cases hc : p.counter = (p.instructions.length : Int)
  · exact ⟨⟨fun _ => hc, fun _ => by rw [hrun, if_pos hc]⟩, fun hne => absurd hc hne⟩
  · refine ⟨⟨fun hF => ?_, fun hc2 => absurd hc2 hc⟩, fun _ => by rw [hrun, if_neg hc]⟩
    rw [hrun, if_neg hc] at hF
    simp at hF

/-- Witness for C1 at a concrete halted state: pointer equal to the
length classifies as `Finished`. -/
theorem run_halt_classification_witness :
    Program.run ⟨[Instruction.NoOperation 0], 0, 1⟩ =
      some (CompletionState.Finished, ⟨[Instruction.NoOperation 0], 0, 1⟩) :=
  (run_halt_classification ⟨[Instruction.NoOperation 0], 0, 1⟩ (by decide)).1.2
    (by decide)

/-- A list of pairwise-distinct integers all lying in `[0, len)` has at
most `len` elements. -/
theorem visited_length_le (visited : List Int) (len : Nat)
    (hnd : visited.Nodup)
    (hmem : ∀ x ∈ visited, 0 ≤ x ∧ x < (len : Int)) :
    visited.length ≤ len := by
  have hsub : visited.toFinset ⊆ Finset.Ico (0 : Int) len := by
    intro x hx
    rw [List.mem_toFinset] at hx
    rcases hmem x hx with ⟨hx1, hx2⟩
    rw [Finset.mem_Ico]
    exact ⟨hx1, hx2⟩
  have hcard := Finset.card_le_card hsub
  rw [List.toFinset_card_of_nodup hnd, Int.card_Ico] at hcard
  omega

/-- With fuel `len + 1 - |visited|` available, the run loop always reaches
a terminal classification: the visited counters are distinct valid
indices, so there can be at most `len` of them. -/
theorem runAux_isSome (fuel : Nat) :
    ∀ (p : Program) (visited : List Int),
      visited.Nodup →
      (∀ x ∈ visited, 0 ≤ x ∧ x < (p.instructions.length : Int)) →
      p.instructions.length + 1 ≤ visited.length + fuel →
      ∃ c q, Program.runAux fuel p visited = some (c, q) := by
  induction fuel with
  | zero =>
      intro p visited hnd hmem hfuel
      exfalso
      have := visited_length_le visited p.instructions.length hnd hmem
      omega
  | succ fuel ih =>
      intro p visited hnd hmem hfuel
      by_cases hm : p.counter ∈ visited
      · exact ⟨CompletionState.Loop, p, by simp [Program.runAux, hm]⟩
      · rcases hs : p.step with ⟨o, q⟩
        cases o with
        | none =>
            refine ⟨(if q.counter = (q.instructions.length : Int)
                     then CompletionState.Finished
                     else CompletionState.OutOfBounds), q, ?_⟩
            simp [Program.runAux, hm, hs]
        | some r =>
            obtain ⟨h0, hlt, hqi⟩ := step_some p r q hs
            obtain ⟨c, q2, hrun⟩ := ih q (p.counter :: visited)
              (List.nodup_cons.2 ⟨hm, hnd⟩)
              (by
                intro x hx
                rcases List.mem_cons.1 hx with hx | hx
                · subst hx
                  rw [hqi]
                  exact ⟨h0, hlt⟩
                · rw [hqi]
                  exact hmem x hx)
              (by
                rw [hqi]
                simp only [List.length_cons]
                omega)
            refine ⟨c, q2, ?_⟩
            rw [show Program.runAux (fuel + 1) p visited =
                  Program.runAux fuel q (p.counter :: visited) from by
                simp [Program.runAux, hm, hs]]
            exact hrun

/-- C2: `run` always terminates with one of the three classifications,
and the fuel `length + 1` suffices — loop detection bounds the run by at
most `length + 1` iterations. -/
theorem run_terminates (p : Program) :
    ∃ c q, Program.runAux (p.instructions.length + 1) p [] = some (c, q) ∧
      p.run = some (c, q) := by
  obtain ⟨c, q, h⟩ :=
    runAux_isSome (p.instructions.length + 1) p [] List.nodup_nil
      (by simp) (by simp)
  exact ⟨c, q, h, h⟩

/-- C4: `with_flipped_instruction` yields nothing exactly on invalid
indices and `Accumulate` slots; on a `NoOp`/`Jump` slot it yields a fresh
program (accumulator 0, counter 0) whose instructions agree with the
receiver everywhere except slot `i`, where the opcode is swapped between
`NoOp` and `Jump` with the argument unchanged.  (The receiver itself is a
value and is never modified.) -/
theorem with_flipped_spec (p : Program) (i : Nat) :
    (p.with_flipped_instruction i = none ↔
       p.instructions.get? i = none ∨
         ∃ n, p.instructions.get? i = some (Instruction.Accumulate n)) ∧
    ∀ q, p.with_flipped_instruction i = some q →
      q.accumulator = 0 ∧ q.counter = 0 ∧
      q.instructions.length = p.instructions.length ∧
      (∀ j, j ≠ i → q.instructions.get? j = p.instructions.get? j) ∧
      (∀ n, p.instructions.get? i = some (Instruction.NoOperation n) →
         q.instructions.get? i = some (Instruction.Jump n)) ∧
      (∀ n, p.instructions.get? i = some (Instruction.Jump n) →
         q.instructions.get? i = some (Instruction.NoOperation n)) := by
  have hlen : ∀ instr, p.instructions.get? i = some instr →
      i < p.instructions.length := by
    intro instr h
    rcases List.get?_eq_some.1 h with ⟨hlt, _⟩
    exact hlt
  constructor
  · unfold Program.with_flipped_instruction
    rcases hg : p.instructions.get? i with _ | instr
    · simp
    · cases instr <;> simp
  · intro q hq
    unfold Program.with_flipped_instruction at hq
    rcases hg : p.instructions.get? i with _ | instr
    · rw [hg] at hq
      simp at hq
    · rw [hg] at hq
      cases instr with
      | Accumulate n => simp at hq
      | NoOperation n =>
          injection hq with hq
          subst hq
          refine ⟨rfl, rfl, List.length_set p.instructions i _, ?_, ?_, ?_⟩
          · intro j hj
            simpa [List.get?_eq_getElem?] using
              List.getElem?_set_ne (Ne.symm hj)
          · intro m hm
            injection hm with hm
            injection hm with hm
            subst hm
            simpa [List.get?_eq_getElem?] using
              List.getElem?_set_self (hlen _ hg)
          · intro m hm
            simp at hm
      | Jump n =>
          injection hq with hq
          subst hq
          refine ⟨rfl, rfl, List.length_set p.instructions i _, ?_, ?_, ?_⟩
          · intro j hj
            simpa [List.get?_eq_getElem?] using
              List.getElem?_set_ne (Ne.symm hj)
          · intro m hm
            simp at hm
          · intro m hm
            injection hm with hm
            injection hm with hm
            subst hm
            simpa [List.get?_eq_getElem?] using
              List.getElem?_set_self (hlen _ hg)

/-- Witness for C4: flipping the `NoOp` at slot 0 of a concrete program
yields a fresh variant. -/
theorem with_flipped_spec_witness :
    (Program.mk [Instruction.Jump 3, Instruction.Accumulate 1] 0 0).accumulator = 0 ∧
    (Program.mk [Instruction.Jump 3, Instruction.Accumulate 1] 0 0).counter = 0 := by
  have h :=
    (with_flipped_spec ⟨[Instruction.NoOperation 3, Instruction.Accumulate 1], 5, 7⟩ 0).2
      ⟨[Instruction.Jump 3, Instruction.Accumulate 1], 0, 0⟩ (by decide)
  exact ⟨h.1, h.2.1⟩

/-- C5: `part1` returns the accumulator at the moment a loop is first
detected, and errors whenever the run classifies as anything other than
`Loop`. -/
theorem part1_requires_loop (raw : String) (p : Program)
    (hp : Program.fromStr raw = Except.ok p) :
    (∀ q, p.run = some (CompletionState.Loop, q) →
       part1 raw = Except.ok q.accumulator) ∧
    (∀ c q, p.run = some (c, q) → c ≠ CompletionState.Loop →
       part1 raw = Except.error "Loop not found in program") := by
  constructor
  · intro q hq
    simp only [part1, hp, hq]
  · intro c q hq hc
    simp only [part1, hp, hq]
    cases c with
    | Loop => exact absurd rfl hc
    | OutOfBounds => rfl
    | Finished => rfl

/-- Witness for C5: the single-instruction program `jmp +0` loops at once
with accumulator 0. -/
theorem part1_requires_loop_witness : part1 "jmp +0" = Except.ok 0 := by
  have h :=
    (part1_requires_loop "jmp +0" ⟨[Instruction.Jump 0], 0, 0⟩ rfl).1
      ⟨[Instruction.Jump 0], 0, 0⟩ (by decide)
  exact h

/-- The contribution of one candidate index to the repair search: the
final accumulator of the variant mutated at `i`, if that variant exists
and its run finishes. -/
def repairResult (p : Program) (i : Nat) : Option Int :=
  match p.with_flipped_instruction i with
  | none => none
  | some q =>
    match q.run with
    | some (CompletionState.Finished, q2) => some q2.accumulator
    | _ => none

/-- The repair search as the spec words it: over candidate indices
`0..len` in ascending order, keep the accumulators of the variants that
finish, and the answer is the first of them. -/
def specRepairResults (p : Program) : List Int :=
  (List.range p.len).filterMap (repairResult p)

/-- The search loop returns the head of the filtered candidate list. -/
theorem firstFinished_eq_head (p : Program) (l : List Nat) :
    firstFinished p l =
      match (l.filterMap (repairResult p)).head? with
      | some a => Except.ok a
      | none => Except.error "No correct programs found" := by
  induction l with
  | nil => rfl
  | cons i rest ih =>
      rw [List.filterMap_cons]
      rcases hf : p.with_flipped_instruction i with _ | q
      · rw [show repairResult p i = none from by simp [repairResult, hf]]
        rw [show firstFinished p (i :: rest) = firstFinished p rest from by
          simp [firstFinished, hf]]
        exact ih
      · rcases hr : q.run with _ | ⟨c, q2⟩
        · rw [show repairResult p i = none from by simp [repairResult, hf, hr]]
          rw [show firstFinished p (i :: rest) = firstFinished p rest from by
            simp [firstFinished, hf, hr]]
          exact ih
        · cases c with
          | Finished =>
              rw [show repairResult p i = some q2.accumulator from by
                simp [repairResult, hf, hr]]
              rw [show firstFinished p (i :: rest) = Except.ok q2.accumulator from by
                simp [firstFinished, hf, hr]]
              rfl
          | Loop =>
              rw [show repairResult p i = none from by simp [repairResult, hf, hr]]
              rw [show firstFinished p (i :: rest) = firstFinished p rest from by
                simp [firstFinished, hf, hr]]
              exact ih
          | OutOfBounds =>
              rw [show repairResult p i = none from by simp [repairResult, hf, hr]]
              rw [show firstFinished p (i :: rest) = firstFinished p rest from by
                simp [firstFinished, hf, hr]]
              exact ih

/-- C3: `part2` enumerates candidate indices `0..len` in ascending order,
skips indices without a mutation, and returns the accumulator of the first
variant whose run reaches `Finished`, erring when there is none; every
candidate variant starts from a fresh run-state. -/
theorem part2_first_finished (raw : String) (p : Program)
    (hp : Program.fromStr raw = Except.ok p) :
    (part2 raw =
       match (specRepairResults p).head? with
       | some a => Except.ok a
       | none => Except.error "No correct programs found") ∧
    (∀ i q, p.with_flipped_instruction i = some q →
       q.accumulator = 0 ∧ q.counter = 0) := by
  constructor
  · simp only [part2, hp]
    exact firstFinished_eq_head p (List.range p.len)
  · intro i q hq
    unfold Program.with_flipped_instruction at hq
    rcases hg : p.instructions.get? i with _ | instr
    · rw [hg] at hq
      simp at hq
    · rw [hg] at hq
      cases instr with
      | Accumulate n => simp at hq
      | NoOperation n =>
          injection hq with hq
          subst hq
          exact ⟨rfl, rfl⟩
      | Jump n =>
          injection hq with hq
          subst hq
          exact ⟨rfl, rfl⟩

/-- Witness for C3: on the two-instruction program `nop +0 / jmp +0`, the
first (and only) finishing variant is the one mutated at index 1, with
accumulator 0. -/
theorem part2_first_finished_witness : part2 "nop +0\njmp +0" = Except.ok 0 := by
  have h :=
    (part2_first_finished "nop +0\njmp +0"
      ⟨[Instruction.NoOperation 0, Instruction.Jump 0], 0, 0⟩ rfl).1
  rw [h]
  rfl

/-- Counterexample to C6: an argument without an explicit leading sign is
accepted, because Rust's `i32` parsing makes the sign optional. -/
theorem instruction_fromStr_accepts_unsigned :
    Instruction.fromStr "nop 5" = Except.ok (Instruction.NoOperation 5) := rfl

/-- C6 (amended): decoding succeeds exactly when the first two whitespace
tokens are a known mnemonic and an argument accepted by `i32` parsing
(optional sign); further tokens are ignored, and unknown mnemonics,
missing tokens and non-integer arguments are errors. -/
theorem instruction_fromStr_ok_iff (s : String) :
    exceptOk (Instruction.fromStr s) = true ↔
      ∃ m a rest, rustTokens s = m :: a :: rest ∧
        (m = "nop" ∨ m = "acc" ∨ m = "jmp") ∧ (parseI32 a).isSome = true := by
  rcases ht : rustTokens s with _ | ⟨m, _ | ⟨a, rest⟩⟩
  · simp [Instruction.fromStr, ht, exceptOk]
  · simp [Instruction.fromStr, ht, exceptOk]
  · rcases hp : parseI32 a with _ | v
    · simp only [Instruction.fromStr, ht, hp, exceptOk]
      constructor
      · intro h
        cases h
      · rintro ⟨m2, a2, r2, heq, hm2, hsome⟩
        injection heq with h1 h2
        injection h2 with h2 h3
        subst h1
        subst h2
        rw [hp] at hsome
        cases hsome
    · by_cases hm : m = "nop"
      · subst hm
        simp only [Instruction.fromStr, ht, hp, exceptOk]
        refine ⟨fun _ => ⟨"nop", a, rest, rfl, Or.inl rfl,
          by rw [hp]; rfl⟩, fun _ => by simp⟩
      · by_cases ha : m = "acc"
        · subst ha
          simp only [Instruction.fromStr, ht, hp, exceptOk, if_neg hm]
          refine ⟨fun _ => ⟨"acc", a, rest, rfl, Or.inr (Or.inl rfl),
            by rw [hp]; rfl⟩, fun _ => by simp⟩
        · by_cases hj : m = "jmp"
          · subst hj
            simp only [Instruction.fromStr, ht, hp, exceptOk, if_neg hm, if_neg ha]
            refine ⟨fun _ => ⟨"jmp", a, rest, rfl, Or.inr (Or.inr rfl),
              by rw [hp]; rfl⟩, fun _ => by simp⟩
          · simp only [Instruction.fromStr, ht, hp, exceptOk, if_neg hm,
              if_neg ha, if_neg hj]
            constructor
            · intro h
              cases h
            · rintro ⟨m2, a2, r2, heq, hm2, hsome⟩
              injection heq with h1 h2
              subst h1
              rcases hm2 with h | h | h
              · exact absurd h hm
              · exact absurd h ha
              · exact absurd h hj

/-- A successful collect decodes the lines pointwise, in order. -/
theorem decodeLines_ok_forall₂ (ls : List String) (is : List Instruction)
    (h : decodeLines ls = Except.ok is) :
    List.Forall₂ (fun line instr => Instruction.fromStr line = Except.ok instr)
      ls is := by
  induction ls generalizing is with
  | nil =>
      simp only [decodeLines] at h
      injection h with h
      subst h
      exact List.Forall₂.nil
  | cons l ls ih =>
      simp only [decodeLines] at h
      rcases hf : Instruction.fromStr l with e | i
      · rw [hf] at h
        cases h
      · rw [hf] at h
        rcases hd : decodeLines ls with e | is2
        · rw [hd] at h
          cases h
        · rw [hd] at h
          injection h with h
          subst h
          exact List.Forall₂.cons hf (ih is2 hd)

/-- If any line fails to decode, the whole collect fails. -/
theorem decodeLines_error_of_bad (ls : List String) (line : String)
    (hmem : line ∈ ls) (hbad : exceptOk (Instruction.fromStr line) = false) :
    ∀ is, decodeLines ls ≠ Except.ok is := by
  induction ls with
  | nil => cases hmem
  | cons l ls ih =>
      intro is h
      simp only [decodeLines] at h
      rcases hf : Instruction.fromStr l with e | i
      · rw [hf] at h
        cases h
      · rw [hf] at h
        rcases hd : decodeLines ls with e | is2
        · rw [hd] at h
          cases h
        · rcases List.mem_cons.1 hmem with heq | hmem2
          · subst heq
            rw [hf] at hbad
            simp [exceptOk] at hbad
          · exact ih hmem2 is2 hd

/-- C7: a successful program decode decodes every line independently in
original order, the line position becoming the instruction index, and a
single bad line makes the whole decode fail. -/
theorem program_fromStr_linewise (s : String) :
    (∀ p, Program.fromStr s = Except.ok p →
       p.accumulator = 0 ∧ p.counter = 0 ∧
       p.instructions.length = (rustLines s).length ∧
       ∀ i, i < (rustLines s).length →
         ∃ line instr, (rustLines s).get? i = some line ∧
           p.instructions.get? i = some instr ∧
           Instruction.fromStr line = Except.ok instr) ∧
    ((∃ line ∈ rustLines s, exceptOk (Instruction.fromStr line) = false) →
       ∀ p, Program.fromStr s ≠ Except.ok p) := by
  constructor
  · intro p hp
    unfold Program.fromStr at hp
    rcases hd : decodeLines (rustLines s) with e | is
    · rw [hd] at hp
      cases hp
    · rw [hd] at hp
      injection hp with hp
      subst hp
      have hf2 := decodeLines_ok_forall₂ _ _ hd
      have hlen := hf2.length_eq
      refine ⟨rfl, rfl, hlen.symm, ?_⟩
      intro i hi
      rw [List.forall₂_iff_get] at hf2
      obtain ⟨hl, hg⟩ := hf2
      have hi2 : i < is.length := by omega
      exact ⟨(rustLines s).get ⟨i, hi⟩, is.get ⟨i, hi2⟩,
        List.get?_eq_get hi, List.get?_eq_get hi2, hg i hi hi2⟩
  · rintro ⟨line, hmem, hbad⟩ p hp
    unfold Program.fromStr at hp
    rcases hd : decodeLines (rustLines s) with e | is
    · rw [hd] at hp
      cases hp
    · exact decodeLines_error_of_bad _ line hmem hbad is hd

/-- Witness for C7 on a one-line input. -/
theorem program_fromStr_linewise_witness :
    (Program.mk [Instruction.Accumulate 7] 0 0).instructions.length =
      (rustLines "acc +7").length :=
  ((program_fromStr_linewise "acc +7").1 ⟨[Instruction.Accumulate 7], 0, 0⟩ rfl).2.2.1

/-- Counterexample to C8: one trailing line terminator is fine, but an
extra trailing blank line makes the whole decode fail rather than being
ignored. -/
theorem program_fromStr_trailing_blank_fails :
    Program.fromStr "nop +0\n" =
      Except.ok ⟨[Instruction.NoOperation 0], 0, 0⟩ ∧
    Program.fromStr "nop +0\n\n" =
      Except.error "Could not parse instruction chunk" :=
  ⟨rfl, rfl⟩

/-- Splitting never produces the empty list of pieces. -/
theorem splitNL_ne_nil (l : List Char) : splitNL l ≠ [] := by
  cases l with
  | nil => simp [splitNL]
  | cons c cs =>
      simp only [splitNL]
      by_cases h : c = '\n'
      · simp [h]
      · rw [if_neg h]
        rcases hs : splitNL cs with _ | ⟨m, ms⟩ <;> simp

/-- Appending a newline appends one empty piece. -/
theorem splitNL_append_newline (l : List Char) :
    splitNL (l ++ [Char.ofNat 10]) = splitNL l ++ [[]] := by
  have hnl : Char.ofNat 10 = '\n' := rfl
  induction l with
  | nil => simp [splitNL, hnl]
  | cons c cs ih =>
      by_cases h : c = '\n'
      · simp only [List.cons_append, splitNL, if_pos h, List.append_eq, ih,
          List.nil_append]
      · simp only [List.cons_append, splitNL, if_neg h, List.append_eq, ih]
        rcases hs : splitNL cs with _ | ⟨m, ms⟩
        · exact absurd hs (splitNL_ne_nil cs)
        · simp

/-- If the character list is nonempty and does not end in a newline, then
the last split piece is nonempty. -/
theorem splitNL_getLast (l : List Char) (h1 : l ≠ [])
    (h2 : l.getLast? ≠ some '\n') :
    (splitNL l).getLast? ≠ some [] := by
  induction l with
  | nil => exact absurd rfl h1
  | cons c cs ih =>
      cases cs with
      | nil =>
          by_cases h : c = '\n'
          · subst h
            simp at h2
          · simp [splitNL, h]
      | cons c2 cs2 =>
          have hlast : (c2 :: cs2).getLast? ≠ some '\n' := by
            rw [List.getLast?_cons_cons] at h2
            exact h2
          have ihr := ih (by simp) hlast
          by_cases h : c = '\n'
          · rcases hs : splitNL (c2 :: cs2) with _ | ⟨m, ms⟩
            · exact absurd hs (splitNL_ne_nil _)
            · rw [hs] at ihr
              rw [splitNL, if_pos h, hs, List.getLast?_cons_cons]
              exact ihr
          · rcases hs : splitNL (c2 :: cs2) with _ | ⟨m, ms⟩
            · exact absurd hs (splitNL_ne_nil _)
            · rw [hs] at ihr
              rw [splitNL, if_neg h, hs]
              cases ms with
              | nil =>
                  show ((c :: m) :: []).getLast? ≠ some []
                  simp
              | cons m2 ms2 =>
                  show ((c :: m) :: m2 :: ms2).getLast? ≠ some []
                  rw [List.getLast?_cons_cons]
                  rw [List.getLast?_cons_cons] at ihr
                  exact ihr

/-- Appending a final newline to a nonempty text not already ending in a
newline leaves the line split unchanged. -/
theorem rustLines_push_newline (s : String) (h1 : s.data ≠ [])
    (h2 : s.data.getLast? ≠ some '\n') :
    rustLines (s.push (Char.ofNat 10)) = rustLines s := by
  have hd : (s.push (Char.ofNat 10)).data = s.data ++ [Char.ofNat 10] := by
    cases s
    rfl
  simp only [rustLines, hd, splitNL_append_newline, List.getLast?_concat,
    if_true, List.dropLast_concat]
  rw [if_neg (splitNL_getLast s.data h1 h2)]

/-- C8 (amended): only the final line terminator is optional — appending a
single newline to a nonempty input that does not already end in one leaves
the decoded program unchanged.  Additional trailing blank lines are not
ignored: each is decoded as an instruction line, fails, and aborts the
decode (see the counterexample above). -/
theorem program_fromStr_final_newline_optional (s : String) (h1 : s.data ≠ [])
    (h2 : s.data.getLast? ≠ some '\n') :
    Program.fromStr (s.push (Char.ofNat 10)) = Program.fromStr s := by
  unfold Program.fromStr
  rw [rustLines_push_newline s h1 h2]

/-- Witness for the amended C8 on a concrete line. -/
theorem program_fromStr_final_newline_optional_witness :
    Program.fromStr ("nop +0".push (Char.ofNat 10)) = Program.fromStr "nop +0" :=
  program_fromStr_final_newline_optional "nop +0" (by decide) (by decide)
